import Mathlib

/-!
Verification of the speaker-attribution engine of the Mongolian parliament
hearing transcript tagger.  The engine itself (the pattern-tagging script and
notebook described in `docs/SPEAKER_PATTERNS.md`, `PATTERN_QUICK_REFERENCE` and
the ML notebook documentation) is not shipped in this snapshot of the
repository, so the pipeline below is modelled from the specification; the
file-upload line loader (`FileUpload.processFile`) is present in the source and
is embedded directly.

Confidences are rational numbers; segment text is modelled as `String` /
`List Char` (the input is already decoded).
-/

namespace SpeakerTag

/-! ## Character helpers -/

/-- Whitespace test used by the segmenter (space or tab inside a line). -/
def isWsChar (c : Char) : Bool := c = ' ' || c = '\t'

/-- Sentence-ending punctuation, the segmenter's primary break signal. -/
def isSentEnd (c : Char) : Bool := c = '.' || c = '!' || c = '?'

/-- ASCII digit test (microphone numbers are written with ASCII digits). -/
def isDigitChar (c : Char) : Bool := '0' ≤ c && c ≤ '9'

/-- Uppercase Cyrillic letter (`А`–`Я` or `Ё`), the first letter of a name. -/
def isUpperCyr (c : Char) : Bool := ('А' ≤ c && c ≤ 'Я') || c = 'Ё'

/-! ## Segmenter

Modelled from the spec: the Segmenter (§4.1) splits one raw line at
sentence-ending punctuation followed by whitespace; the separators stay inside
the produced pieces so that concatenation reconstructs the line.  The
strong-pattern and maximum-length refinements of §4.1 only insert further break
points and preserve the same reconstruction contract; they are not needed by
any claim and are omitted from the model. -/

/-- One segment of a raw line (spec §3): the originating line number, the
character offset inside the line, and the segment text. -/
structure Segment where
  source_line_number : Nat
  offset_in_line : Nat
  text : String
deriving DecidableEq, Repr

/-- Core splitting loop: `acc` holds the (reversed) characters of the segment
being built; a cut happens after sentence punctuation that is followed by
whitespace. -/
def splitChars : List Char → List Char → List (List Char)
  | acc, [] => [acc.reverse]
  | acc, [c] => [(c :: acc).reverse]
  | acc, c :: d :: rest =>
    if isSentEnd c && isWsChar d then (c :: acc).reverse :: splitChars [] (d :: rest)
    else splitChars (c :: acc) (d :: rest)

/-- Attach line number and running offsets to the split pieces. -/
def withOffsets (n : Nat) : Nat → List (List Char) → List Segment
  | _, [] => []
  | off, p :: ps => ⟨n, off, String.mk p⟩ :: withOffsets n (off + p.length) ps

/-- Modelled from the spec: `Segmenter` (§4.1) — split raw line number `n`
into an ordered sequence of `Segment`s. -/
def segmentLine (n : Nat) (line : String) : List Segment :=
  withOffsets n 0 (splitChars [] line.data)

theorem splitChars_join (acc l : List Char) :
    (splitChars acc l).flatten = acc.reverse ++ l := by
  induction acc, l using splitChars.induct with
  | case1 acc => simp [splitChars]
  | case2 acc c => simp [splitChars]
  | case3 acc c d rest h ih =>
    simp only [splitChars, h, if_true, List.flatten_cons, ih]
    simp
  | case4 acc c d rest h ih =>
    simp only [splitChars, h, Bool.false_eq_true, if_false, ih]
    simp

theorem splitChars_ne_nil (acc l : List Char) : splitChars acc l ≠ [] := by
  induction acc, l using splitChars.induct with
  | case1 acc => simp [splitChars]
  | case2 acc c => simp [splitChars]
  | case3 acc c d rest h ih => simp [splitChars, h]
  | case4 acc c d rest h ih =>
    simp only [splitChars, h, Bool.false_eq_true, if_false]
    exact ih

theorem splitChars_no_break (acc l : List Char)
    (hl : ∀ c ∈ l, isSentEnd c = false) : splitChars acc l = [acc.reverse ++ l] := by
  induction acc, l using splitChars.induct with
  | case1 acc => simp [splitChars]
  | case2 acc c => simp [splitChars]
  | case3 acc c d rest h ih =>
    have hc : isSentEnd c = false := hl c (by simp)
    rw [hc] at h
    simp at h
  | case4 acc c d rest h ih =>
    have hrec := ih (fun x hx => hl x (List.mem_cons_of_mem c hx))
    simp only [splitChars, h, Bool.false_eq_true, if_false, hrec]
    simp

theorem withOffsets_texts (n : Nat) (ps : List (List Char)) :
    ∀ off, (withOffsets n off ps).map (fun sg => sg.text.data) = ps := by
  induction ps with
  | nil => intro off; simp [withOffsets]
  | cons p ps ih => intro off; simp [withOffsets, ih]

theorem withOffsets_line (n : Nat) (ps : List (List Char)) :
    ∀ off, ∀ sg ∈ withOffsets n off ps, sg.source_line_number = n := by
  induction ps with
  | nil => intro off sg h; simp [withOffsets] at h
  | cons p ps ih =>
    intro off sg h
    simp only [withOffsets, List.mem_cons] at h
    rcases h with h | h
    · rw [h]
    · exact ih _ sg h

theorem withOffsets_chain (n : Nat) (ps : List (List Char)) :
    ∀ off, List.Chain'
      (fun a b => b.offset_in_line = a.offset_in_line + a.text.data.length)
      (withOffsets n off ps) := by
  induction ps with
  | nil => intro off; simp [withOffsets]
  | cons p ps ih =>
    intro off
    simp only [withOffsets]
    rw [List.chain'_cons']
    refine ⟨?_, ih _⟩
    intro sg hsg
    cases ps with
    | nil => simp [withOffsets] at hsg
    | cons q qs =>
      simp only [withOffsets, List.head?, Option.mem_def, Option.some.injEq] at hsg
      rw [← hsg]

/-- C8 (claim): for every input line, the Segmenter terminates and returns an
ordered, non-empty sequence of Segments with non-overlapping offsets that
exhaustively cover the line: segment texts concatenate back to the line, every
segment carries the line number, the first offset is `0` and each next offset
is the previous offset plus the previous text length; a line with no
sentence-ending punctuation stays one single whole-line segment. -/
theorem segmenter_reconstructs (n : Nat) (line : String) :
    ((segmentLine n line).map (fun sg => sg.text.data)).flatten = line.data ∧
    segmentLine n line ≠ [] ∧
    (∀ sg ∈ segmentLine n line, sg.source_line_number = n) ∧
    (∀ sg, (segmentLine n line).head? = some sg → sg.offset_in_line = 0) ∧
    List.Chain'
      (fun a b => b.offset_in_line = a.offset_in_line + a.text.data.length)
      (segmentLine n line) ∧
    ((∀ c ∈ line.data, isSentEnd c = false) → segmentLine n line = [⟨n, 0, line⟩]) := by
  refine ⟨?_, ?_, ?_, ?_, ?_, ?_⟩
  · rw [segmentLine, withOffsets_texts, splitChars_join]
    simp
  · rw [segmentLine]
    intro h
    have h2 := splitChars_ne_nil [] line.data
    cases hs : splitChars [] line.data with
    | nil => exact h2 hs
    | cons p ps => rw [hs] at h; simp [withOffsets] at h
  · exact withOffsets_line n _ 0
  · intro sg hsg
    rw [segmentLine] at hsg
    cases hs : splitChars [] line.data with
    | nil => exact absurd hs (splitChars_ne_nil [] line.data)
    | cons p ps =>
      rw [hs] at hsg
      simp only [withOffsets, List.head?, Option.some.injEq] at hsg
      rw [← hsg]
  · exact withOffsets_chain n _ 0
  · intro h
    rw [segmentLine, splitChars_no_break [] line.data h]
    simp [withOffsets]

/-- Witness for C8 at concrete inputs: a two-sentence line splits into two
covering segments, and a punctuation-free line stays whole. -/
theorem segmenter_reconstructs_witness :
    ((segmentLine 7 "Нэг. Хоёр даа").map (fun sg => sg.text.data)).flatten
        = "Нэг. Хоёр даа".data ∧
    segmentLine 2 "Хоёр" = [⟨2, 0, "Хоёр"⟩] :=
  ⟨(segmenter_reconstructs 7 "Нэг. Хоёр даа").1,
   (segmenter_reconstructs 2 "Хоёр").2.2.2.2.2 (by decide)⟩

/-! ## Substring search helpers (used by the modelled pattern matchers) -/

/-- `subAt needle hay` is true when `needle` occurs at the very front of
`hay`. -/
def subAt : List Char → List Char → Bool
  | [], _ => true
  | _ :: _, [] => false
  | a :: as, b :: bs => a == b && subAt as bs

/-- First index (from `i`) at which `needle` occurs in `hay`. -/
def findSubFrom (needle : List Char) : List Char → Nat → Option Nat
  | [], i => if needle.isEmpty then some i else none
  | c :: rest, i =>
    if subAt needle (c :: rest) then some i else findSubFrom needle rest (i + 1)

/-- First index at which `needle` occurs in `hay`, if any. -/
def findSub (needle hay : List Char) : Option Nat := findSubFrom needle hay 0

/-- Whether `needle` occurs anywhere in `hay`. -/
def containsSub (needle hay : List Char) : Bool := (findSub needle hay).isSome

/-- First digit position and the remaining characters from it. -/
def findDigit : List Char → Nat → Option (Nat × List Char)
  | [], _ => none
  | c :: rest, i =>
    if isDigitChar c then some (i, c :: rest) else findDigit rest (i + 1)

/-- Numeric value of a digit run. -/
def natFromDigits (ds : List Char) : Nat :=
  ds.foldl (fun acc c => acc * 10 + (c.toNat - '0'.toNat)) 0

/-- The word (maximal whitespace-free run) ending just before index `i`. -/
def wordBefore (i : Nat) (hay : List Char) : List Char :=
  (((hay.take i).reverse.dropWhile isWsChar).takeWhile (fun c => !(isWsChar c))).reverse

/-- The word starting at or right after index `i` (leading whitespace
skipped). -/
def wordAfter (i : Nat) (hay : List Char) : List Char :=
  ((hay.drop i).dropWhile isWsChar).takeWhile (fun c => !(isWsChar c))

/-! ## Microphone registry

Modelled from the spec: `MicrophoneRegistry` (§4.4) — session state mapping a
microphone number to the speaker last assigned to it; `assign` is an
unconditional overwrite and `lookup` reads the current entry. -/

/-- The microphone registry: newest assignment first. -/
abbrev Registry := List (Nat × String)

/-- `assign(number, speaker)`: unconditional overwrite. -/
def regAssign (n : Nat) (sp : String) (reg : Registry) : Registry := (n, sp) :: reg

/-- `lookup(number) -> speaker | None`: read-only. -/
def regLookup (n : Nat) : Registry → Option String
  | [] => none
  | (m, sp) :: rest => if m = n then some sp else regLookup n rest

/-! ## Pattern catalog

Modelled from the spec: `PatternCatalog` (§4.2) and the pattern table of
`docs/SPEAKER_PATTERNS.md`.  Each matcher is a simplified executable version of
the documented regular expression: it tests the documented keywords and
extracts the documented capture (speaker name, microphone number) together with
the match start position used for position weighting. -/

/-- What a rule match yields: the start position of the match in the segment,
the extracted speaker name and the extracted microphone number. -/
structure MatchInfo where
  start : Nat
  speaker : Option String
  mic : Option Nat
deriving DecidableEq, Repr

/-- One detection rule: name, base confidence, whether the position boost of
§4.3 applies (introduction/assignment patterns), whether it updates the
microphone registry (assignment patterns), whether it is an
extension/continuation pattern, and the matcher. -/
structure PatternRule where
  name : String
  base_confidence : ℚ
  position_sensitive : Bool
  is_assignment : Bool
  is_continuation : Bool
  matcher : List Char → Option MatchInfo

/-- Honorific/title words recognised by the catalog. -/
def titleList : List (List Char) :=
  ["сайд".data, "дарга".data, "гишүүн".data, "гуай".data, "захирал".data,
   "шинжээч".data]

/-- First title of `titleList` occurring in `hay`, with its position. -/
def firstTitlePos (hay : List Char) : Option (Nat × List Char) :=
  titleList.foldr
    (fun t acc =>
      match findSub t hay with
      | some i => some (i, t)
      | none => acc)
    none

/-- `За. [Name] [Title]` — direct introduction (0.95). -/
def introMatch (hay : List Char) : Option MatchInfo :=
  match findSub "За".data hay with
  | none => none
  | some i =>
    match firstTitlePos hay with
    | none => none
    | some (j, _) =>
      if i < j then some ⟨i, some (String.mk (wordAfter (i + 2) hay)), none⟩
      else none

/-- `[Number] номерын микрофон [Name]` — microphone assignment (0.92). -/
def micAssignMatch (hay : List Char) : Option MatchInfo :=
  match findSub "номерын микрофон".data hay with
  | none => none
  | some j =>
    match findDigit hay 0 with
    | none => none
    | some (i, tail) =>
      if i < j then
        let name := wordAfter (j + 16) hay
        if name.isEmpty then none
        else if isUpperCyr (name.headD 'a') then
          some ⟨i, some (String.mk name), some (natFromDigits (tail.takeWhile isDigitChar))⟩
        else none
      else none

/-- `За [Number] номер [Name]` — short microphone form (0.88). -/
def shortMicMatch (hay : List Char) : Option MatchInfo :=
  match findDigit hay 0 with
  | none => none
  | some (i, tail) =>
    let ds := tail.takeWhile isDigitChar
    let rest1 := (tail.drop ds.length).dropWhile isWsChar
    if subAt "номер".data rest1 then
      let rest2 := rest1.drop 5
      let rest3 := (if subAt "ын".data rest2 then rest2.drop 2 else rest2).dropWhile isWsChar
      let rest4 :=
        if subAt "микрофон".data rest3 then (rest3.drop 8).dropWhile isWsChar else rest3
      let name := rest4.takeWhile (fun c => !(isWsChar c))
      if name.isEmpty then none
      else if isUpperCyr (name.headD 'a') then
        some ⟨i, some (String.mk name), some (natFromDigits ds)⟩
      else none
    else none

/-- `[Name] [Title] асан` — past-office reference (0.90). -/
def pastRefMatch (hay : List Char) : Option MatchInfo :=
  match findSub " асан".data hay with
  | none => none
  | some i =>
    match firstTitlePos hay with
    | none => none
    | some (j, t) =>
      if j < i then some ⟨j, some (String.mk (wordBefore j hay ++ ' ' :: t)), none⟩
      else none

/-- `[Name] [Title] та` — direct address (0.85). -/
def addressMatch (hay : List Char) : Option MatchInfo :=
  match firstTitlePos hay with
  | none => none
  | some (i, t) =>
    let rest := hay.drop (i + t.length)
    if subAt " та".data rest then
      match rest.drop 3 with
      | [] => some ⟨i, some (String.mk (wordBefore i hay ++ ' ' :: t)), none⟩
      | c :: _ =>
        if isWsChar c || isSentEnd c then
          some ⟨i, some (String.mk (wordBefore i hay ++ ' ' :: t)), none⟩
        else none
    else none

/-- `[Name] гуайгаас асууя` — question / call-to-speak (0.80). -/
def questionMatch (hay : List Char) : Option MatchInfo :=
  match findSub "гуай".data hay with
  | none => none
  | some i =>
    if containsSub "асуу".data (hay.drop i) then
      some ⟨i, some (String.mk (wordBefore i hay)), none⟩
    else none

/-- `[Number] номер нэмэлт … минут` — extension/continuation request (0.75). -/
def extensionMatch (hay : List Char) : Option MatchInfo :=
  match findDigit hay 0 with
  | none => none
  | some (i, tail) =>
    let ds := tail.takeWhile isDigitChar
    let rest1 := (tail.drop ds.length).dropWhile isWsChar
    if subAt "номер".data rest1 && containsSub "нэмэлт".data rest1 &&
        containsSub "минут".data rest1 then
      some ⟨i, none, some (natFromDigits ds)⟩
    else none

/-- `[Name]-гийн` / `[Name]-ын` — possessive/contextual mention (0.50). -/
def possessiveMatch (hay : List Char) : Option MatchInfo :=
  match findSub "-гийн".data hay with
  | some i => some ⟨i, some (String.mk (wordBefore i hay)), none⟩
  | none =>
    match findSub "-ын".data hay with
    | some i => some ⟨i, some (String.mk (wordBefore i hay)), none⟩
    | none => none

def introRule : PatternRule := ⟨"intro_za", 19/20, true, false, false, introMatch⟩

def micAssignRule : PatternRule :=
  ⟨"microphone_assignment", 23/25, true, true, false, micAssignMatch⟩

def shortMicRule : PatternRule :=
  ⟨"short_microphone", 22/25, true, true, false, shortMicMatch⟩

def pastRefRule : PatternRule := ⟨"past_reference", 9/10, false, false, false, pastRefMatch⟩

def addressRule : PatternRule := ⟨"direct_address", 17/20, false, false, false, addressMatch⟩

def questionRule : PatternRule := ⟨"question_call", 4/5, false, false, false, questionMatch⟩

def extensionRule : PatternRule :=
  ⟨"extension_request", 3/4, false, false, true, extensionMatch⟩

def possessiveRule : PatternRule := ⟨"possessive", 1/2, false, false, false, possessiveMatch⟩

/-- Modelled from the spec: the fixed priority list of §4.2, earlier entries
winning confidence ties. -/
def patternCatalog : List PatternRule :=
  [introRule, micAssignRule, shortMicRule, pastRefRule, addressRule, questionRule,
   extensionRule, possessiveRule]

/-- The catalog with its priority positions, used by the tie-break proofs. -/
def indexedCatalog : List (Nat × PatternRule) :=
  [(0, introRule), (1, micAssignRule), (2, shortMicRule), (3, pastRefRule),
   (4, addressRule), (5, questionRule), (6, extensionRule), (7, possessiveRule)]

/-- Base confidences in priority order. -/
def catalogConfidences : List ℚ := patternCatalog.map (fun r => r.base_confidence)

/-- Rule names in priority order. -/
def catalogNames : List String := patternCatalog.map (fun r => r.name)

/-! ## Pattern detector

Modelled from the spec: `PatternDetector` (§4.3) — evaluate every catalog rule
on a segment, pick the highest-confidence match (earlier catalog position wins
ties), apply the position boost, resolve continuations through the registry and
perform assignment side effects. -/

/-- A detection candidate for one segment. -/
structure Detection where
  pattern_name : String
  speaker : Option String
  mic : Option Nat
  confidence : ℚ
  is_continuation : Bool
deriving DecidableEq, Repr

/-- All rule matches of a segment, in catalog priority order. -/
def ruleMatches (s : List Char) : List (Nat × PatternRule × MatchInfo) :=
  indexedCatalog.filterMap (fun p =>
    match p.2.matcher s with
    | some m => some (p.1, p.2, m)
    | none => none)

/-- Max-by-confidence fold over the matches; on equal confidence the earlier
entry is kept. -/
def selectBest : List (Nat × PatternRule × MatchInfo) → Option (Nat × PatternRule × MatchInfo)
  | [] => none
  | x :: xs =>
    match selectBest xs with
    | none => some x
    | some y => if x.2.1.base_confidence < y.2.1.base_confidence then some y else some x

/-- Position weighting (§4.3): a position-sensitive rule matching within the
first 50 characters gets a flat +0.05 boost, capped at 1. -/
def adjustedConfidence (r : PatternRule) (m : MatchInfo) : ℚ :=
  if r.position_sensitive && decide (m.start < 50) then min (r.base_confidence + 1/20) 1
  else r.base_confidence

/-- Modelled from the spec: `PatternDetector` (§4.3) — zero-or-one Detection
per segment plus the updated registry. -/
def detectSegment (reg : Registry) (s : List Char) : Option Detection × Registry :=
  match selectBest (ruleMatches s) with
  | none => (none, reg)
  | some (_, r, m) =>
    let conf := adjustedConfidence r m
    if r.is_continuation then
      match m.mic with
      | none => (none, reg)
      | some n => (some ⟨r.name, regLookup n reg, some n, conf, true⟩, reg)
    else if r.is_assignment then
      match m.mic, m.speaker with
      | some n, some sp => (some ⟨r.name, some sp, some n, conf, false⟩, regAssign n sp reg)
      | _, _ => (some ⟨r.name, m.speaker, m.mic, conf, false⟩, reg)
    else (some ⟨r.name, m.speaker, m.mic, conf, false⟩, reg)

/-- The registry write a segment performs, if any: the selected rule must be an
assignment pattern with an extracted microphone number and speaker.  This
depends only on the segment text, never on the current registry. -/
def assignTarget (s : List Char) : Option (Nat × String) :=
  match selectBest (ruleMatches s) with
  | none => none
  | some (_, r, m) =>
    if r.is_continuation then none
    else if r.is_assignment then
      match m.mic, m.speaker with
      | some n, some sp => some (n, sp)
      | _, _ => none
    else none

/-! ## Context propagator

Modelled from the spec: `ContextPropagator` (§4.5) — walk the per-segment
detections in order, carrying `PropagationState`; `steps_since_detection`
counts the segments processed since the last firm detection, so a segment at
distance `steps_since_detection + 1` from the anchor inherits only while that
distance stays within the context window (scenario D of §8). -/

inductive Origin
  | detected
  | inherited
  | continuation
  | unknown
deriving DecidableEq, Repr

/-- Final per-segment result (spec §3). -/
structure Assignment where
  speaker : String
  confidence : ℚ
  origin : Origin
deriving DecidableEq, Repr

/-- Left-to-right propagation state (spec §3). -/
structure PropagationState where
  last_speaker : Option String
  last_confidence : ℚ
  steps_since_detection : Nat
deriving DecidableEq, Repr

/-- Configuration surface consumed by the propagator (spec §6). -/
structure Config where
  context_window : Nat
  decay_rate : ℚ
  floor_confidence : ℚ
deriving DecidableEq, Repr

/-- Well-formed configuration: decay and floor are non-negative. -/
def Config.Wf (cfg : Config) : Prop :=
  0 ≤ cfg.decay_rate ∧ 0 ≤ cfg.floor_confidence

/-- Propagation state at the start of a transcript. -/
def initState : PropagationState := ⟨none, 0, 0⟩

/-- No usable detection: inherit the anchor with decayed confidence while the
distance since the last detection stays within the context window, else
UNKNOWN. -/
def inheritStep (cfg : Config) (st : PropagationState) : Assignment × PropagationState :=
  match st.last_speaker with
  | some sp =>
    let steps := st.steps_since_detection + 1
    if steps ≤ cfg.context_window then
      (⟨sp, max cfg.floor_confidence (st.last_confidence - cfg.decay_rate * (steps : ℚ)),
          Origin.inherited⟩,
       ⟨some sp, st.last_confidence, steps⟩)
    else (⟨"UNKNOWN", 0, Origin.unknown⟩, st)
  | none => (⟨"UNKNOWN", 0, Origin.unknown⟩, st)

/-- One propagation transition (§4.5).  A detection with a resolved speaker
(direct, or a continuation whose microphone is mapped) resets the anchor; an
unresolved continuation falls through to inheritance exactly like a missing
detection. -/
def propagateStep (cfg : Config) (st : PropagationState) (det : Option Detection) :
    Assignment × PropagationState :=
  match det with
  | some d =>
    match d.speaker with
    | some sp =>
      (⟨sp, d.confidence, if d.is_continuation then Origin.continuation else Origin.detected⟩,
       ⟨some sp, d.confidence, 0⟩)
    | none => inheritStep cfg st
  | none => inheritStep cfg st

/-- Propagate over a whole detection stream. -/
def propagateAll (cfg : Config) : PropagationState → List (Option Detection) → List Assignment
  | _, [] => []
  | st, d :: ds =>
    (propagateStep cfg st d).1 :: propagateAll cfg (propagateStep cfg st d).2 ds

/-! ## Full pipeline -/

/-- Detector and propagator threaded over the segment texts in document
order. -/
def processSegments (cfg : Config) :
    Registry → PropagationState → List (List Char) → List Assignment
  | _, _, [] => []
  | reg, st, s :: ss =>
    (propagateStep cfg st (detectSegment reg s).1).1 ::
      processSegments cfg (detectSegment reg s).2
        (propagateStep cfg st (detectSegment reg s).1).2 ss

/-- The registry left after detecting a list of segments. -/
def registryAfter : Registry → List (List Char) → Registry
  | reg, [] => reg
  | reg, s :: ss => registryAfter (detectSegment reg s).2 ss

/-- Modelled from the spec: the whole engine (§2 control flow) — raw lines are
segmented, detected and propagated with a fresh registry and state. -/
def runEngine (cfg : Config) (lines : List String) : List Assignment :=
  processSegments cfg [] initState
    (((lines.enum.map (fun p => segmentLine p.1 p.2)).flatten).map (fun sg => sg.text.data))

/-! ## Quality assessor

Modelled from the spec: `QualityAssessor` (§4.6) — pure aggregation of the
final assignment list; on an empty list coverage and mean confidence are
reported as undefined (`none`) instead of dividing by zero. -/

structure QualityReport where
  total : Nat
  covered : Nat
  coverage : Option ℚ
  mean_confidence : Option ℚ
  good : Bool
deriving DecidableEq, Repr

/-- Number of assignments whose origin is not `unknown`. -/
def countCovered (as : List Assignment) : Nat :=
  (as.filter (fun a => decide (a.origin ≠ Origin.unknown))).length

/-- Modelled from the spec: `QualityAssessor` (§4.6). -/
def assess (as : List Assignment) : QualityReport :=
  if as.length = 0 then ⟨0, 0, none, none, false⟩
  else
    let cov : ℚ := (countCovered as : ℚ) / (as.length : ℚ)
    let mean : ℚ := ((as.map (fun a => a.confidence)).sum) / (as.length : ℚ)
    ⟨as.length, countCovered as, some cov, some mean,
     decide ((3 : ℚ)/4 ≤ cov) && decide ((7 : ℚ)/10 ≤ mean)⟩

/-! ## Selection lemmas -/

theorem selectBest_eq_none_iff (ms : List (Nat × PatternRule × MatchInfo)) :
    selectBest ms = none ↔ ms = [] := by
  cases ms with
  | nil => simp [selectBest]
  | cons x xs =>
    simp only [selectBest]
    cases selectBest xs with
    | none => simp
    | some y =>
      by_cases h : x.2.1.base_confidence < y.2.1.base_confidence <;> simp [h]

theorem selectBest_mem :
    ∀ (ms : List (Nat × PatternRule × MatchInfo)) x, selectBest ms = some x → x ∈ ms := by
  intro ms
  induction ms with
  | nil => intro x h; simp [selectBest] at h
  | cons z zs ih =>
    intro x h
    simp only [selectBest] at h
    cases hz : selectBest zs with
    | none =>
      rw [hz] at h
      simp only at h
      obtain rfl : z = x := Option.some.inj h
      exact List.mem_cons_self z zs
    | some y =>
      rw [hz] at h
      simp only at h
      by_cases hlt : z.2.1.base_confidence < y.2.1.base_confidence
      · rw [if_pos hlt] at h
        obtain rfl : y = x := Option.some.inj h
        exact List.mem_cons_of_mem z (ih y hz)
      · rw [if_neg hlt] at h
        obtain rfl : z = x := Option.some.inj h
        exact List.mem_cons_self z zs

theorem selectBest_max :
    ∀ (ms : List (Nat × PatternRule × MatchInfo)) x, selectBest ms = some x →
      ∀ y ∈ ms, y.2.1.base_confidence ≤ x.2.1.base_confidence := by
  intro ms
  induction ms with
  | nil => intro x h; simp [selectBest] at h
  | cons z zs ih =>
    intro x h y hy
    simp only [selectBest] at h
    cases hz : selectBest zs with
    | none =>
      rw [hz] at h
      simp only at h
      have hzs : zs = [] := (selectBest_eq_none_iff zs).mp hz
      subst hzs
      have hzx : z = x := Option.some.inj h
      subst hzx
      rcases List.mem_cons.mp hy with rfl | hy'
      · exact le_refl _
      · simp at hy'
    | some w =>
      rw [hz] at h
      simp only at h
      by_cases hlt : z.2.1.base_confidence < w.2.1.base_confidence
      · rw [if_pos hlt] at h
        have hwx : w = x := Option.some.inj h
        subst hwx
        rcases List.mem_cons.mp hy with rfl | hy'
        · exact le_of_lt hlt
        · exact ih w hz y hy'
      · rw [if_neg hlt] at h
        have hzx : z = x := Option.some.inj h
        subst hzx
        rcases List.mem_cons.mp hy with rfl | hy'
        · exact le_refl _
        · exact le_trans (ih w hz y hy') (le_of_not_lt hlt)

theorem selectBest_first :
    ∀ (ms : List (Nat × PatternRule × MatchInfo)),
      List.Pairwise (fun a b => a.1 < b.1) ms →
      ∀ x, selectBest ms = some x →
      ∀ y ∈ ms, y.2.1.base_confidence = x.2.1.base_confidence → x.1 ≤ y.1 := by
  intro ms
  induction ms with
  | nil => intro _ x h; simp [selectBest] at h
  | cons z zs ih =>
    intro hpw x h y hy hconf
    have hz_lt := (List.pairwise_cons.mp hpw).1
    have hpw' := (List.pairwise_cons.mp hpw).2
    simp only [selectBest] at h
    cases hz : selectBest zs with
    | none =>
      rw [selectBest_eq_none_iff] at hz
      subst hz
      rcases List.mem_cons.mp hy with rfl | hy'
      · simp only [selectBest] at h
        obtain rfl : y = x := Option.some.inj h
        exact le_refl _
      · simp at hy'
    | some w =>
      rw [hz] at h
      simp only at h
      by_cases hlt : z.2.1.base_confidence < w.2.1.base_confidence
      · rw [if_pos hlt] at h
        have hwx : w = x := Option.some.inj h
        subst hwx
        rcases List.mem_cons.mp hy with rfl | hy'
        · rw [hconf] at hlt
          exact absurd hlt (lt_irrefl _)
        · exact ih hpw' w hz y hy' hconf
      · rw [if_neg hlt] at h
        have hzx : z = x := Option.some.inj h
        subst hzx
        rcases List.mem_cons.mp hy with rfl | hy'
        · exact le_refl _
        · exact le_of_lt (hz_lt y hy')

theorem mem_ruleMatches {s : List Char} {i : Nat} {r : PatternRule} {m : MatchInfo} :
    (i, r, m) ∈ ruleMatches s ↔ (i, r) ∈ indexedCatalog ∧ r.matcher s = some m := by
  simp only [ruleMatches, List.mem_filterMap]
  constructor
  · rintro ⟨p, hp, hf⟩
    cases hm : p.2.matcher s with
    | none => rw [hm] at hf; simp at hf
    | some m' =>
      rw [hm] at hf
      obtain ⟨h1, h2, h3⟩ : p.1 = i ∧ p.2 = r ∧ m' = m := by
        have := Option.some.inj hf
        exact ⟨congrArg Prod.fst this, congrArg (fun q => q.2.1) this,
          congrArg (fun q => q.2.2) this⟩
      refine ⟨?_, ?_⟩
      · rw [← h1, ← h2]; exact hp
      · rw [← h2, hm, h3]
  · rintro ⟨hp, hm⟩
    exact ⟨(i, r), hp, by simp [hm]⟩

theorem pairwise_lt_ruleMatches (s : List Char) :
    List.Pairwise (fun a b => a.1 < b.1) (ruleMatches s) := by
  have base : List.Pairwise (fun a b : Nat × PatternRule => a.1 < b.1) indexedCatalog := by
    simp [indexedCatalog]
  have key : ∀ (l : List (Nat × PatternRule)),
      List.Pairwise (fun a b => a.1 < b.1) l →
      List.Pairwise (fun a b => a.1 < b.1)
        (l.filterMap (fun p =>
          match p.2.matcher s with
          | some m => some (p.1, p.2, m)
          | none => none)) := by
    intro l hl
    induction hl with
    | nil => simp
    | @cons a l' ha hl' ih =>
      rw [List.filterMap_cons]
      cases hfa : (match a.2.matcher s with
          | some m => some (a.1, a.2, m)
          | none => none) with
      | none => exact ih
      | some x =>
        refine List.Pairwise.cons ?_ ih
        intro y hy
        obtain ⟨b, hb, hfb⟩ := List.mem_filterMap.mp hy
        have hx1 : x.1 = a.1 := by
          cases hma : a.2.matcher s with
          | none => rw [hma] at hfa; simp at hfa
          | some mm =>
            rw [hma] at hfa
            rw [← Option.some.inj hfa]
        have hy1 : y.1 = b.1 := by
          cases hmb : b.2.matcher s with
          | none => rw [hmb] at hfb; simp at hfb
          | some mm =>
            rw [hmb] at hfb
            rw [← Option.some.inj hfb]
        rw [hx1, hy1]
        exact ha b hb
  exact key indexedCatalog base

theorem extensionMatch_mic {s : List Char} {m : MatchInfo} :
    extensionMatch s = some m → m.mic.isSome := by
  intro h
  unfold extensionMatch at h
  cases hd : findDigit s 0 with
  | none => rw [hd] at h; simp at h
  | some p =>
    rw [hd] at h
    simp only at h
    split at h
    · rw [← Option.some.inj h]
      simp
    · simp at h

theorem continuation_mic_some {s : List Char} {i : Nat} {r : PatternRule} {m : MatchInfo}
    (h : (i, r, m) ∈ ruleMatches s) (hc : r.is_continuation = true) : m.mic.isSome := by
  rw [mem_ruleMatches] at h
  obtain ⟨hp, hm⟩ := h
  simp [indexedCatalog, Prod.mk.injEq] at hp
  rcases hp with ⟨_, rfl⟩ | ⟨_, rfl⟩ | ⟨_, rfl⟩ | ⟨_, rfl⟩ | ⟨_, rfl⟩ | ⟨_, rfl⟩ |
    ⟨_, rfl⟩ | ⟨_, rfl⟩
  · simp [introRule] at hc
  · simp [micAssignRule] at hc
  · simp [shortMicRule] at hc
  · simp [pastRefRule] at hc
  · simp [addressRule] at hc
  · simp [questionRule] at hc
  · exact extensionMatch_mic hm
  · simp [possessiveRule] at hc

/-- The emitted confidence is always the position-adjusted confidence of the
selected rule. -/
theorem detect_confidence {s : List Char} {reg : Registry} {i : Nat} {r : PatternRule}
    {m : MatchInfo} {d : Detection}
    (hsel : selectBest (ruleMatches s) = some (i, r, m))
    (hdet : (detectSegment reg s).1 = some d) :
    d.confidence = adjustedConfidence r m := by
  unfold detectSegment at hdet
  rw [hsel] at hdet
  simp only at hdet
  cases hc : r.is_continuation with
  | true =>
    rw [hc] at hdet
    simp only [if_true] at hdet
    cases hm : m.mic with
    | none => rw [hm] at hdet; simp at hdet
    | some n =>
      rw [hm] at hdet
      simp only at hdet
      rw [← Option.some.inj hdet]
  | false =>
    rw [hc] at hdet
    simp only [Bool.false_eq_true, if_false] at hdet
    cases ha : r.is_assignment with
    | true =>
      rw [ha] at hdet
      simp only [if_true] at hdet
      cases hm : m.mic with
      | none =>
        rw [hm] at hdet
        cases hsp : m.speaker with
        | none => rw [hsp] at hdet; rw [← Option.some.inj hdet]
        | some sp => rw [hsp] at hdet; rw [← Option.some.inj hdet]
      | some n =>
        rw [hm] at hdet
        cases hsp : m.speaker with
        | none => rw [hsp] at hdet; rw [← Option.some.inj hdet]
        | some sp => rw [hsp] at hdet; rw [← Option.some.inj hdet]
    | false =>
      rw [ha] at hdet
      simp only [Bool.false_eq_true, if_false] at hdet
      rw [← Option.some.inj hdet]

set_option maxRecDepth 16384 in
/-- C1 (claim): on every segment where at least one rule matches, the detector
emits exactly one Detection — the match of maximal base confidence, with
confidence ties resolved toward the earlier entry of the fixed priority
list — and the scenario segment matching both the possessive rule (0.50)
and the direct-address rule (0.85) resolves to the 0.85 direct-address
match. -/
theorem detector_selects_highest :
    (∀ s : List Char, ruleMatches s ≠ [] →
      ∃ i r m, selectBest (ruleMatches s) = some (i, r, m) ∧
        (i, r, m) ∈ ruleMatches s ∧
        (∀ j r' m', (j, r', m') ∈ ruleMatches s →
          r'.base_confidence ≤ r.base_confidence) ∧
        (∀ j r' m', (j, r', m') ∈ ruleMatches s →
          r'.base_confidence = r.base_confidence → i ≤ j) ∧
        (∀ reg : Registry, ((detectSegment reg s).1).isSome = true)) ∧
    (detectSegment [] "Баяр сайд та Дэмбэрэл-гийн асуултад хариулна уу".data).1 =
      some ⟨"direct_address", some "Баяр сайд", none, 17/20, false⟩ := by
  constructor
  · intro s hne
    cases hsel : selectBest (ruleMatches s) with
    | none => exact absurd ((selectBest_eq_none_iff _).mp hsel) hne
    | some x =>
      obtain ⟨i, r, m⟩ := x
      refine ⟨i, r, m, rfl, selectBest_mem _ _ hsel, ?_, ?_, ?_⟩
      · intro j r' m' hmem
        exact selectBest_max _ _ hsel (j, r', m') hmem
      · intro j r' m' hmem hconf
        exact selectBest_first _ (pairwise_lt_ruleMatches s) _ hsel (j, r', m') hmem hconf
      · intro reg
        unfold detectSegment
        rw [hsel]
        simp only
        cases hc : r.is_continuation with
        | true =>
          have hmic := continuation_mic_some (selectBest_mem _ _ hsel) hc
          cases hm : m.mic with
          | none => rw [hm] at hmic; simp at hmic
          | some n => simp
        | false =>
          simp only [Bool.false_eq_true, if_false]
          cases ha : r.is_assignment with
          | true =>
            simp only [if_true]
            cases hm : m.mic with
            | none => cases hsp : m.speaker <;> simp
            | some n => cases hsp : m.speaker <;> simp
          | false => simp
  · with_unfolding_all decide

set_option maxRecDepth 16384 in
/-- Witness for C1: the scenario segment has a matching rule, and the theorem
instantiates there. -/
theorem detector_selects_highest_witness :
    ∃ i r m,
      selectBest (ruleMatches "Баяр сайд та Дэмбэрэл-гийн асуултад хариулна уу".data)
          = some (i, r, m) ∧
      (i, r, m) ∈ ruleMatches "Баяр сайд та Дэмбэрэл-гийн асуултад хариулна уу".data ∧
      (∀ j r' m',
          (j, r', m') ∈ ruleMatches "Баяр сайд та Дэмбэрэл-гийн асуултад хариулна уу".data →
          r'.base_confidence ≤ r.base_confidence) ∧
      (∀ j r' m',
          (j, r', m') ∈ ruleMatches "Баяр сайд та Дэмбэрэл-гийн асуултад хариулна уу".data →
          r'.base_confidence = r.base_confidence → i ≤ j) ∧
      (∀ reg : Registry,
        ((detectSegment reg "Баяр сайд та Дэмбэрэл-гийн асуултад хариулна уу".data).1).isSome
          = true) := by
  have hlen : (ruleMatches "Баяр сайд та Дэмбэрэл-гийн асуултад хариулна уу".data).length = 2 := by
    with_unfolding_all decide
  refine detector_selects_highest.1 _ (fun h => ?_)
  rw [h] at hlen
  simp at hlen

/-- C6 counterexample: the fixed priority list of the catalog is not ordered
from highest to lowest base confidence — the short microphone form (0.88,
position 2) precedes the past-office reference (0.90, position 3). -/
theorem catalog_not_sorted_desc :
    catalogConfidences = [19/20, 23/25, 22/25, 9/10, 17/20, 4/5, 3/4, 1/2] ∧
    catalogConfidences.getD 2 0 < catalogConfidences.getD 3 0 ∧
    ¬ List.Chain' (fun a b : ℚ => b ≤ a) catalogConfidences := by
  refine ⟨by with_unfolding_all decide, by with_unfolding_all decide, ?_⟩
  intro hch
  have h1 : catalogConfidences = [19/20, 23/25, 22/25, 9/10, 17/20, 4/5, 3/4, 1/2] := by
    with_unfolding_all decide
  rw [h1] at hch
  simp only [List.chain'_cons, List.chain'_singleton, and_true] at hch
  have hbad := hch.2.2.1
  norm_num at hbad

/-- C6 (amended): the catalog assigns base confidences 0.95, 0.92, 0.88, 0.90,
0.85, 0.80, 0.75, 0.50 to the rules in the fixed priority order intro >
microphone assignment > short microphone form > past-office reference > direct
address > question > extension > possessive; every adjacent pair is
non-increasing except the single inversion where the short microphone form
(0.88) precedes the past-office reference (0.90). -/
theorem catalog_confidences :
    catalogNames = ["intro_za", "microphone_assignment", "short_microphone",
      "past_reference", "direct_address", "question_call", "extension_request",
      "possessive"] ∧
    catalogConfidences = [19/20, 23/25, 22/25, 9/10, 17/20, 4/5, 3/4, 1/2] ∧
    (∀ i, i < 7 → i ≠ 2 →
      catalogConfidences.getD (i + 1) 0 ≤ catalogConfidences.getD i 0) ∧
    catalogConfidences.getD 2 0 < catalogConfidences.getD 3 0 := by
  refine ⟨by with_unfolding_all decide, by with_unfolding_all decide, ?_,
    by with_unfolding_all decide⟩
  with_unfolding_all decide

/-- Witness for the amended C6 at a concrete adjacent pair: the question rule
(0.80) does not exceed the direct-address rule (0.85) just before it. -/
theorem catalog_confidences_witness :
    catalogConfidences.getD 5 0 ≤ catalogConfidences.getD 4 0 :=
  catalog_confidences.2.2.1 4 (by norm_num) (by norm_num)

/-- C7 (claim): the Detection emitted for a segment whose selected rule is a
position-sensitive introduction/assignment pattern matching within the first
50 characters carries the rule's base confidence plus a flat 0.05, capped at
1; any other selected match keeps the plain base confidence. -/
theorem position_boost (s : List Char) (reg : Registry) (i : Nat) (r : PatternRule)
    (m : MatchInfo) (d : Detection)
    (hsel : selectBest (ruleMatches s) = some (i, r, m))
    (hdet : (detectSegment reg s).1 = some d) :
    (r.position_sensitive = true → m.start < 50 →
      d.confidence = min (r.base_confidence + 1/20) 1) ∧
    ((r.position_sensitive = false ∨ 50 ≤ m.start) →
      d.confidence = r.base_confidence) := by
  have hconf := detect_confidence hsel hdet
  constructor
  · intro hps hlt
    rw [hconf]
    unfold adjustedConfidence
    rw [hps]
    simp [hlt]
  · intro hor
    rw [hconf]
    unfold adjustedConfidence
    rcases hor with hps | hge
    · rw [hps]
      simp
    · have : ¬ (m.start < 50) := not_lt.mpr hge
      simp [this]

set_option maxRecDepth 16384 in
/-- Witness for C7: the microphone-assignment match at position 0 of a concrete
segment is boosted from 0.92 to 0.97. -/
theorem position_boost_witness :
    (detectSegment [] "3 номерын микрофон Баяр".data).1 =
      some ⟨"microphone_assignment", some "Баяр", some 3, 97/100, false⟩ ∧
    (⟨"microphone_assignment", some "Баяр", some 3, 97/100, false⟩ : Detection).confidence
      = min ((23 : ℚ)/25 + 1/20) 1 := by
  constructor
  · with_unfolding_all decide
  · exact (position_boost "3 номерын микрофон Баяр".data [] 1 micAssignRule
      ⟨0, some "Баяр", some 3⟩ ⟨"microphone_assignment", some "Баяр", some 3, 97/100, false⟩
      (by with_unfolding_all rfl) (by with_unfolding_all decide)).1 rfl (by decide)

/-! ## Registry lemmas (C2) -/

/-- The registry side effect of one detection step is exactly the
`assignTarget` write. -/
theorem detect_registry (reg : Registry) (s : List Char) :
    (detectSegment reg s).2 =
      match assignTarget s with
      | some p => regAssign p.1 p.2 reg
      | none => reg := by
  unfold detectSegment assignTarget
  cases hsel : selectBest (ruleMatches s) with
  | none => rfl
  | some x =>
    obtain ⟨i, r, m⟩ := x
    simp only
    cases hc : r.is_continuation with
    | true =>
      simp only [if_true]
      cases hm : m.mic <;> simp
    | false =>
      simp only [Bool.false_eq_true, if_false]
      cases ha : r.is_assignment with
      | true =>
        simp only [if_true]
        cases hm : m.mic with
        | none => cases hsp : m.speaker <;> simp
        | some n => cases hsp : m.speaker <;> simp
      | false => simp

theorem regLookup_assign_self (n : Nat) (sp : String) (reg : Registry) :
    regLookup n (regAssign n sp reg) = some sp := by
  simp [regAssign, regLookup]

theorem detect_assign_lookup (reg : Registry) (s : List Char) (n : Nat) (sp : String)
    (h : assignTarget s = some (n, sp)) :
    regLookup n (detectSegment reg s).2 = some sp := by
  rw [detect_registry, h]
  exact regLookup_assign_self n sp reg

theorem registryAfter_preserves (n : Nat) :
    ∀ (segs : List (List Char)) (reg : Registry),
      (∀ s ∈ segs, ∀ p : Nat × String, assignTarget s = some p → p.1 ≠ n) →
      regLookup n (registryAfter reg segs) = regLookup n reg := by
  intro segs
  induction segs with
  | nil => intro reg _; rfl
  | cons s ss ih =>
    intro reg h
    show regLookup n (registryAfter (detectSegment reg s).2 ss) = _
    rw [ih _ (fun t ht => h t (List.mem_cons_of_mem s ht))]
    rw [detect_registry]
    cases hat : assignTarget s with
    | none => rfl
    | some p =>
      have hne := h s (List.mem_cons_self s ss) p hat
      simp [regAssign, regLookup, hne]

theorem registryAfter_isSome (n : Nat) :
    ∀ (segs : List (List Char)) (reg : Registry),
      (regLookup n reg).isSome = true →
      (regLookup n (registryAfter reg segs)).isSome = true := by
  intro segs
  induction segs with
  | nil => intro reg h; exact h
  | cons s ss ih =>
    intro reg h
    show (regLookup n (registryAfter (detectSegment reg s).2 ss)).isSome = true
    apply ih
    rw [detect_registry]
    cases hat : assignTarget s with
    | none => exact h
    | some p =>
      by_cases hp : p.1 = n
      · simp [regAssign, regLookup, hp]
      · simpa [regAssign, regLookup, hp] using h

/-- C2 (claim): registry monotonicity — an `assign(n, s)` is immediately
readable, every later `lookup(n)` returns it until a later assignment to the
same number overwrites it, no entry is ever deleted while processing segments,
and only segments whose selected rule is an assignment pattern ever mutate the
registry. -/
theorem registry_monotonic :
    (∀ (n : Nat) (sp : String) (reg : Registry),
      regLookup n (regAssign n sp reg) = some sp) ∧
    (∀ (reg : Registry) (s : List Char) (n : Nat) (sp : String),
      assignTarget s = some (n, sp) → regLookup n (detectSegment reg s).2 = some sp) ∧
    (∀ (segs : List (List Char)) (reg : Registry) (n : Nat),
      (∀ s ∈ segs, ∀ p : Nat × String, assignTarget s = some p → p.1 ≠ n) →
      regLookup n (registryAfter reg segs) = regLookup n reg) ∧
    (∀ (segs : List (List Char)) (reg : Registry) (n : Nat),
      (regLookup n reg).isSome = true →
      (regLookup n (registryAfter reg segs)).isSome = true) ∧
    (∀ (reg : Registry) (s : List Char),
      assignTarget s = none → (detectSegment reg s).2 = reg) := by
  refine ⟨regLookup_assign_self, detect_assign_lookup, ?_, ?_, ?_⟩
  · intro segs reg n h
    exact registryAfter_preserves n segs reg h
  · intro segs reg n h
    exact registryAfter_isSome n segs reg h
  · intro reg s h
    rw [detect_registry, h]

set_option maxRecDepth 16384 in
/-- Witness for C2: a concrete microphone assignment is stored, read back, and
survives a following extension segment untouched. -/
theorem registry_monotonic_witness :
    regLookup 3 (regAssign 3 "Баяр" []) = some "Баяр" ∧
    regLookup 3 (detectSegment [] "3 номерын микрофон Баяр".data).2 = some "Баяр" ∧
    regLookup 3 (registryAfter (regAssign 3 "Баяр" []) ["3 номер нэмэлт нэг минут".data])
      = regLookup 3 (regAssign 3 "Баяр" []) := by
  refine ⟨registry_monotonic.1 3 "Баяр" [],
    registry_monotonic.2.1 [] "3 номерын микрофон Баяр".data 3 "Баяр" ?_,
    registry_monotonic.2.2.1 ["3 номер нэмэлт нэг минут".data] (regAssign 3 "Баяр" []) 3 ?_⟩
  · with_unfolding_all decide
  · intro s hs p hp
    have hseg : s = "3 номер нэмэлт нэг минут".data := by simpa using hs
    subst hseg
    have hnone : assignTarget "3 номер нэмэлт нэг минут".data = none := by
      with_unfolding_all decide
    rw [hnone] at hp
    exact Option.noConfusion hp

/-! ## Propagation lemmas (C3, C4, C5) -/

/-- An inherited assignment can only come from the inherit branch: it exposes
the anchor, the in-window distance, the decay formula and the state update. -/
theorem propagateStep_inherited (cfg : Config) (st : PropagationState)
    (det : Option Detection)
    (ho : ((propagateStep cfg st det).1).origin = Origin.inherited) :
    ∃ sp, st.last_speaker = some sp ∧
      st.steps_since_detection + 1 ≤ cfg.context_window ∧
      (propagateStep cfg st det).1 =
        ⟨sp, max cfg.floor_confidence
          (st.last_confidence - cfg.decay_rate * ((st.steps_since_detection + 1 : Nat) : ℚ)),
         Origin.inherited⟩ ∧
      (propagateStep cfg st det).2 =
        ⟨some sp, st.last_confidence, st.steps_since_detection + 1⟩ := by
  have hinherit : ∀ hi : ((inheritStep cfg st).1).origin = Origin.inherited,
      ∃ sp, st.last_speaker = some sp ∧
        st.steps_since_detection + 1 ≤ cfg.context_window ∧
        (inheritStep cfg st).1 =
          ⟨sp, max cfg.floor_confidence
            (st.last_confidence - cfg.decay_rate * ((st.steps_since_detection + 1 : Nat) : ℚ)),
           Origin.inherited⟩ ∧
        (inheritStep cfg st).2 =
          ⟨some sp, st.last_confidence, st.steps_since_detection + 1⟩ := by
    intro hi
    unfold inheritStep at hi ⊢
    rcases hsp : st.last_speaker with _ | sp
    · simp only [hsp] at hi
      simp at hi
    · simp only [hsp] at hi ⊢
      by_cases hw : st.steps_since_detection + 1 ≤ cfg.context_window
      · simp only [hw, if_true] at hi ⊢
        exact ⟨sp, rfl, trivial, rfl, rfl⟩
      · simp only [hw, if_false] at hi
        simp at hi
  cases det with
  | none => exact hinherit ho
  | some d =>
    unfold propagateStep at ho ⊢
    rcases hsp : d.speaker with _ | sp
    · simp only [hsp] at ho ⊢
      exact hinherit ho
    · simp only [hsp] at ho
      cases hc : d.is_continuation <;> simp [hc] at ho

/-- Two consecutive inherited assignments keep the anchor and never increase
confidence. -/
theorem propagate_pair_mono {cfg : Config} (hr : 0 ≤ cfg.decay_rate)
    (st : PropagationState) (d d' : Option Detection)
    (h1 : ((propagateStep cfg st d).1).origin = Origin.inherited)
    (h2 : ((propagateStep cfg (propagateStep cfg st d).2 d').1).origin = Origin.inherited) :
    ((propagateStep cfg (propagateStep cfg st d).2 d').1).confidence ≤
      ((propagateStep cfg st d).1).confidence ∧
    ((propagateStep cfg (propagateStep cfg st d).2 d').1).speaker =
      ((propagateStep cfg st d).1).speaker := by
  obtain ⟨sp, hsp, hw, ha, hst⟩ := propagateStep_inherited cfg st d h1
  have h2' := h2
  rw [hst] at h2'
  obtain ⟨sp', hsp', hw', ha', hst'⟩ :=
    propagateStep_inherited cfg
      ⟨some sp, st.last_confidence, st.steps_since_detection + 1⟩ d' h2'
  have hspe : sp' = sp := (Option.some.inj hsp').symm
  subst hspe
  rw [hst, ha', ha]
  refine ⟨?_, rfl⟩
  simp only
  apply max_le_max (le_refl cfg.floor_confidence)
  apply sub_le_sub_left
  apply mul_le_mul_of_nonneg_left _ hr
  push_cast
  linarith

/-- Adjacent assignments of a propagation run never gain confidence and keep
the anchor while both are inherited. -/
theorem propagateAll_chain (cfg : Config) (hr : 0 ≤ cfg.decay_rate) :
    ∀ (dets : List (Option Detection)) (st : PropagationState),
      List.Chain'
        (fun a b => a.origin = Origin.inherited → b.origin = Origin.inherited →
          b.confidence ≤ a.confidence ∧ b.speaker = a.speaker)
        (propagateAll cfg st dets) := by
  intro dets
  induction dets with
  | nil => intro st; simp [propagateAll]
  | cons d ds ih =>
    intro st
    show List.Chain' _
      ((propagateStep cfg st d).1 :: propagateAll cfg (propagateStep cfg st d).2 ds)
    rw [List.chain'_cons']
    refine ⟨?_, ih _⟩
    intro y hy h1 h2
    cases ds with
    | nil => simp [propagateAll] at hy
    | cons d' ds' =>
      have hy' : y = (propagateStep cfg (propagateStep cfg st d).2 d').1 := by
        simp only [propagateAll, List.head?, Option.mem_def, Option.some.injEq] at hy
        exact hy.symm
      subst hy'
      exact propagate_pair_mono hr st d d' h1 h2

/-- C3 (claim): along any propagation run, confidence is non-increasing across
consecutive inherited assignments sharing the anchor; an inherited confidence
is exactly `max floor (last_confidence - decay_rate * steps_since_detection)`
for the current distance; and a detection or continuation with a resolved
speaker resets the confidence to the raw detection confidence and the
distance counter to zero. -/
theorem inherited_decay :
    (∀ cfg : Config, 0 ≤ cfg.decay_rate →
      ∀ (dets : List (Option Detection)) (st : PropagationState),
        List.Chain'
          (fun a b => a.origin = Origin.inherited → b.origin = Origin.inherited →
            b.confidence ≤ a.confidence ∧ b.speaker = a.speaker)
          (propagateAll cfg st dets)) ∧
    (∀ (cfg : Config) (st : PropagationState) (sp : String),
      st.last_speaker = some sp →
      st.steps_since_detection + 1 ≤ cfg.context_window →
      (propagateStep cfg st none).1 =
        ⟨sp, max cfg.floor_confidence
          (st.last_confidence - cfg.decay_rate * ((st.steps_since_detection + 1 : Nat) : ℚ)),
         Origin.inherited⟩) ∧
    (∀ (cfg : Config) (st : PropagationState) (d : Detection) (sp : String),
      d.speaker = some sp →
      (propagateStep cfg st (some d)).1 =
        ⟨sp, d.confidence,
          if d.is_continuation then Origin.continuation else Origin.detected⟩ ∧
      (propagateStep cfg st (some d)).2 = ⟨some sp, d.confidence, 0⟩) := by
  refine ⟨?_, ?_, ?_⟩
  · intro cfg hr dets st
    exact propagateAll_chain cfg hr dets st
  · intro cfg st sp hsp hw
    show (inheritStep cfg st).1 = _
    unfold inheritStep
    rw [hsp]
    simp only [hw, if_true]
  · intro cfg st d sp hsp
    simp [propagateStep, hsp]

/-- Witness for C3 on the scenario-D run: the chain property, the decay
formula at one concrete state, and the reset at one concrete detection. -/
theorem inherited_decay_witness :
    List.Chain'
      (fun a b => a.origin = Origin.inherited → b.origin = Origin.inherited →
        b.confidence ≤ a.confidence ∧ b.speaker = a.speaker)
      (propagateAll ⟨3, 1/10, 3/10⟩ initState
        [some ⟨"intro_za", some "X", none, 19/20, false⟩, none, none, none, none]) ∧
    (propagateStep ⟨3, 1/10, 3/10⟩ ⟨some "X", 19/20, 0⟩ none).1 =
      ⟨"X", max ((3 : ℚ)/10) ((19 : ℚ)/20 - (1 : ℚ)/10 * ((1 : Nat) : ℚ)), Origin.inherited⟩ ∧
    (propagateStep ⟨3, 1/10, 3/10⟩ initState
        (some ⟨"intro_za", some "X", none, 19/20, false⟩)).2 = ⟨some "X", 19/20, 0⟩ := by
  refine ⟨inherited_decay.1 ⟨3, 1/10, 3/10⟩ (by norm_num) _ initState,
    inherited_decay.2.1 ⟨3, 1/10, 3/10⟩ ⟨some "X", 19/20, 0⟩ "X" rfl (by norm_num), ?_⟩
  exact (inherited_decay.2.2 ⟨3, 1/10, 3/10⟩ initState
    ⟨"intro_za", some "X", none, 19/20, false⟩ "X" rfl).2

/-- C4 (claim): a segment with no usable detection whose distance from the last
firm detection exceeds the context window is never assigned the inherited
anchor — it gets speaker UNKNOWN with origin `unknown`; concretely, a
detection at segment 0 with window 3 yields origins detected, inherited,
inherited, inherited, unknown over segments 0-4. -/
theorem context_window_expiry :
    (∀ (cfg : Config) (st : PropagationState) (det : Option Detection),
      (det = none ∨ ∃ d, det = some d ∧ d.speaker = none) →
      cfg.context_window < st.steps_since_detection + 1 →
      (propagateStep cfg st det).1 = ⟨"UNKNOWN", 0, Origin.unknown⟩) ∧
    (propagateAll ⟨3, 1/10, 3/10⟩ initState
        [some ⟨"intro_za", some "X", none, 19/20, false⟩, none, none, none, none]).map
        (fun a => a.origin) =
      [Origin.detected, Origin.inherited, Origin.inherited, Origin.inherited,
       Origin.unknown] := by
  constructor
  · intro cfg st det hdet hw
    have hinherit : (inheritStep cfg st).1 = ⟨"UNKNOWN", 0, Origin.unknown⟩ := by
      unfold inheritStep
      rcases hsp : st.last_speaker with _ | sp
      · simp [hsp]
      · simp [hsp, not_le.mpr hw]
    rcases hdet with rfl | ⟨d, rfl, hsp⟩
    · exact hinherit
    · simp only [propagateStep, hsp]
      exact hinherit
  · with_unfolding_all decide

/-- Witness for C4: a state five steps past its anchor with window 3 goes to
UNKNOWN. -/
theorem context_window_expiry_witness :
    (propagateStep ⟨3, 1/10, 3/10⟩ ⟨some "X", 19/20, 4⟩ none).1 =
      ⟨"UNKNOWN", 0, Origin.unknown⟩ :=
  context_window_expiry.1 ⟨3, 1/10, 3/10⟩ ⟨some "X", 19/20, 4⟩ none (Or.inl rfl)
    (by norm_num)

set_option maxRecDepth 16384 in
/-- C5 (claim): an extension/continuation match whose microphone number is not
in the registry raises no error — the detector still returns (with an
unresolved speaker and unchanged registry), the propagator treats it exactly
like a missing detection, and with no active anchor the segment ends up as
("UNKNOWN", 0, unknown); the scenario-B segment evaluates exactly so. -/
theorem extension_unmapped :
    (∀ (cfg : Config) (st : PropagationState) (d : Detection),
      d.is_continuation = true → d.speaker = none →
      propagateStep cfg st (some d) = propagateStep cfg st none) ∧
    (∀ (reg : Registry) (s : List Char) (i : Nat) (r : PatternRule) (m : MatchInfo)
        (n : Nat),
      selectBest (ruleMatches s) = some (i, r, m) →
      r.is_continuation = true → m.mic = some n → regLookup n reg = none →
      detectSegment reg s =
        (some ⟨r.name, none, some n, adjustedConfidence r m, true⟩, reg)) ∧
    processSegments ⟨3, 1/10, 3/10⟩ [] initState ["9 номер нэмэлт хоёр минут.".data] =
      [⟨"UNKNOWN", 0, Origin.unknown⟩] := by
  refine ⟨?_, ?_, ?_⟩
  · intro cfg st d _ hsp
    simp [propagateStep, hsp]
  · intro reg s i r m n hsel hc hm hlook
    unfold detectSegment
    rw [hsel]
    simp only [hc, if_true]
    simp only [hm]
    rw [hlook]
  · with_unfolding_all decide

set_option maxRecDepth 16384 in
/-- Witness for C5: the scenario-B segment's selected rule is the extension
rule with microphone 9, unmapped in the empty registry. -/
theorem extension_unmapped_witness :
    detectSegment [] "9 номер нэмэлт хоёр минут.".data =
      (some ⟨"extension_request", none, some 9,
        adjustedConfidence extensionRule ⟨0, none, some 9⟩, true⟩, []) ∧
    propagateStep ⟨3, 1/10, 3/10⟩ initState
        (some ⟨"extension_request", none, some 9, 3/4, true⟩) =
      propagateStep ⟨3, 1/10, 3/10⟩ initState none := by
  refine ⟨?_, extension_unmapped.1 ⟨3, 1/10, 3/10⟩ initState
    ⟨"extension_request", none, some 9, 3/4, true⟩ rfl rfl⟩
  have hsel : selectBest (ruleMatches "9 номер нэмэлт хоёр минут.".data) =
      some (6, extensionRule, ⟨0, none, some 9⟩) := by
    with_unfolding_all rfl
  exact extension_unmapped.2.1 [] "9 номер нэмэлт хоёр минут.".data 6 extensionRule
    ⟨0, none, some 9⟩ 9 hsel rfl rfl rfl

/-! ## Quality assessor (C9) -/

/-- C9 (claim): on empty input the engine produces an empty assignment list,
and the QualityAssessor never divides by zero — it reports coverage (and mean
confidence) as undefined for zero assignments, while on non-empty input
coverage is `count(origin ≠ unknown) / total`. -/
theorem empty_input_quality :
    (∀ cfg : Config, runEngine cfg [] = []) ∧
    (assess []).total = 0 ∧
    (assess []).coverage = none ∧
    (assess []).mean_confidence = none ∧
    (∀ as : List Assignment, as ≠ [] →
      (assess as).coverage = some ((countCovered as : ℚ) / (as.length : ℚ))) := by
  refine ⟨fun cfg => rfl, rfl, rfl, rfl, ?_⟩
  intro as h
  have hlen : ¬(as.length = 0) := fun hh => h (List.length_eq_zero.mp hh)
  simp only [assess, if_neg hlen]

/-- Witness for C9: a singleton detected assignment has coverage 1/1. -/
theorem empty_input_quality_witness :
    (assess [⟨"X", 1, Origin.detected⟩]).coverage =
      some ((countCovered [⟨"X", 1, Origin.detected⟩] : ℚ) /
        (([⟨"X", 1, Origin.detected⟩] : List Assignment).length : ℚ)) :=
  empty_input_quality.2.2.2.2 [⟨"X", 1, Origin.detected⟩] (by simp)

/-! ## File loader (C10)

Embedded from the source `FileUpload` component: `processFile` splits the file
content on newline characters, trims each line, and keeps only the non-empty
results, preserving order. -/

/-- Trim leading and trailing whitespace, as the source's `line.trim()`. -/
def trimLine (l : List Char) : List Char :=
  ((l.dropWhile Char.isWhitespace).reverse.dropWhile Char.isWhitespace).reverse

/-- Split on newline characters (the source's `content.split('\n')`). -/
def splitNewlines : List Char → List (List Char)
  | [] => [[]]
  | c :: rest =>
    if c = '\n' then [] :: splitNewlines rest
    else
      match splitNewlines rest with
      | [] => [[c]]
      | h :: t => (c :: h) :: t

/-- `processFile` from the source FileUpload component:
`content.split('\n').map(line => line.trim()).filter(line => line.length > 0)`. -/
def processFile (content : List Char) : List (List Char) :=
  ((splitNewlines content).map trimLine).filter (fun l => decide (0 < l.length))

theorem dropWhile_head_not (p : Char → Bool) :
    ∀ (l : List Char) x xs, l.dropWhile p = x :: xs → p x = false := by
  intro l
  induction l with
  | nil => intro x xs h; simp [List.dropWhile] at h
  | cons a as ih =>
    intro x xs h
    rw [List.dropWhile_cons] at h
    by_cases hp : p a = true
    · rw [if_pos hp] at h
      exact ih x xs h
    · rw [if_neg hp] at h
      obtain ⟨rfl, -⟩ := List.cons.inj h
      simpa using hp

theorem dropWhile_idem (p : Char → Bool) (l : List Char) :
    (l.dropWhile p).dropWhile p = l.dropWhile p := by
  cases h : l.dropWhile p with
  | nil => rfl
  | cons x xs =>
    have hx := dropWhile_head_not p l x xs h
    rw [List.dropWhile_cons, if_neg (by simp [hx])]

theorem dropWhile_suffix_decomp (p : Char → Bool) :
    ∀ l : List Char, ∃ t, l = t ++ l.dropWhile p := by
  intro l
  induction l with
  | nil => exact ⟨[], rfl⟩
  | cons a as ih =>
    by_cases hp : p a = true
    · obtain ⟨t, ht⟩ := ih
      refine ⟨a :: t, ?_⟩
      rw [List.dropWhile_cons, if_pos hp]
      rw [List.cons_append, ← ht]
    · exact ⟨[], by rw [List.dropWhile_cons, if_neg hp, List.nil_append]⟩

/-- The trimmed line has no leading whitespace left. -/
theorem trim_head (l : List Char) :
    (trimLine l).dropWhile Char.isWhitespace = trimLine l := by
  cases h : trimLine l with
  | nil => rfl
  | cons y ys =>
    obtain ⟨t, ht⟩ :=
      dropWhile_suffix_decomp Char.isWhitespace (l.dropWhile Char.isWhitespace).reverse
    have hu : l.dropWhile Char.isWhitespace = y :: (ys ++ t.reverse) := by
      have h1 : l.dropWhile Char.isWhitespace =
          ((l.dropWhile Char.isWhitespace).reverse.dropWhile Char.isWhitespace).reverse ++
            t.reverse := by
        conv_lhs => rw [← List.reverse_reverse (l.dropWhile Char.isWhitespace), ht]
        rw [List.reverse_append]
      rw [show ((l.dropWhile Char.isWhitespace).reverse.dropWhile Char.isWhitespace).reverse
          = trimLine l from rfl, h] at h1
      simpa using h1
    have hy := dropWhile_head_not Char.isWhitespace l y (ys ++ t.reverse) hu
    rw [List.dropWhile_cons, if_neg (by simp [hy])]

/-- The trimmed line has no trailing whitespace left. -/
theorem trim_last (l : List Char) :
    (trimLine l).reverse.dropWhile Char.isWhitespace = (trimLine l).reverse := by
  have hrev : (trimLine l).reverse =
      (l.dropWhile Char.isWhitespace).reverse.dropWhile Char.isWhitespace := by
    unfold trimLine
    rw [List.reverse_reverse]
  rw [hrev, dropWhile_idem]

/-- Trimming is idempotent. -/
theorem trimLine_fixed (l : List Char) : trimLine (trimLine l) = trimLine l := by
  show (((trimLine l).dropWhile Char.isWhitespace).reverse.dropWhile
      Char.isWhitespace).reverse = trimLine l
  rw [trim_head l, trim_last l, List.reverse_reverse]

/-- C10 (claim): every line delivered by the file loader is non-empty, carries
no leading or trailing whitespace (it is its own trim, its head and its last
character are not whitespace), and the delivered lines are a subsequence — in
particular in the same relative order — of the trimmed split lines of the
file. -/
theorem processFile_lines :
    (∀ (content : List Char) (l : List Char), l ∈ processFile content →
      0 < l.length ∧ trimLine l = l ∧
      l.dropWhile Char.isWhitespace = l ∧
      l.reverse.dropWhile Char.isWhitespace = l.reverse) ∧
    (∀ content : List Char,
      List.Sublist (processFile content) ((splitNewlines content).map trimLine)) := by
  constructor
  · intro content l hl
    unfold processFile at hl
    have hmem := List.mem_filter.mp hl
    obtain ⟨l0, hl0, rfl⟩ := List.mem_map.mp hmem.1
    exact ⟨by simpa using hmem.2, trimLine_fixed l0, trim_head l0, trim_last l0⟩
  · intro content
    exact List.filter_sublist _

/-- Witness for C10: a concrete two-line upload with padding and a blank line
delivers the two trimmed lines in order. -/
theorem processFile_lines_witness :
    processFile "  аб \nвг\n\n".data = ["аб".data, "вг".data] ∧
    (0 < "аб".data.length ∧ trimLine "аб".data = "аб".data ∧
      "аб".data.dropWhile Char.isWhitespace = "аб".data ∧
      "аб".data.reverse.dropWhile Char.isWhitespace = "аб".data.reverse) ∧
    List.Sublist (processFile "  аб \nвг\n\n".data)
      ((splitNewlines "  аб \nвг\n\n".data).map trimLine) := by
  refine ⟨by decide, processFile_lines.1 "  аб \nвг\n\n".data "аб".data (by decide),
    processFile_lines.2 "  аб \nвг\n\n".data⟩

end SpeakerTag
